import Mathlib

/-!
Verification of the canvas hierarchy renderer and spatial-interaction
controller of `sortingHatOnline` (`src/composables/useCanvasTree.ts`),
as a shallow embedding in Lean 4.

Conventions of the embedding:
* Machine floating-point numbers become exact rationals (`ℚ`); the tolerance
  clauses of the spec become exact equalities over `ℚ`.
* `Math.sqrt (dx*dx + dy*dy) < r` is embedded as `dx*dx + dy*dy < r*r`,
  which is equivalent over the nonnegative reals.
* Node ids (strings in the source) become `Nat`.
* d3 hierarchy nodes (`CanvasNode`) become the rose tree `HNode`, where the
  source's `undefined` children / `_children` fields become `[]`.
-/

namespace CanvasTree

/-- Camera transform: `transform = { x, y, k }` of `useCanvasTree.ts`. -/
structure Transform where
  x : ℚ
  y : ℚ
  k : ℚ
  deriving DecidableEq, Repr

/-- `screenToWorld(screenX, screenY)`:
`{ x: (screenX - transform.x) / transform.k, y: (screenY - transform.y) / transform.k }`. -/
def screenToWorld (t : Transform) (screenX screenY : ℚ) : ℚ × ℚ :=
  ((screenX - t.x) / t.k, (screenY - t.y) / t.k)

/-- The zoom part of `handleWheel(event)`: from the cursor position and the
sign of `event.deltaY`, clamp the new scale to `[0.1, 3]` and adjust the pan
so the world point under the cursor is preserved. -/
def handleWheel (t : Transform) (mouseX mouseY deltaY : ℚ) : Transform :=
  let zoomFactor : ℚ := if deltaY > 0 then 9/10 else 11/10
  let newScale : ℚ := max (1/10) (min 3 (t.k * zoomFactor))
  let worldBefore := screenToWorld t mouseX mouseY
  let t1 : Transform := { t with k := newScale }
  let worldAfter := screenToWorld t1 mouseX mouseY
  { t1 with
      x := t1.x + (worldAfter.1 - worldBefore.1) * t1.k,
      y := t1.y + (worldAfter.2 - worldBefore.2) * t1.k }

/-- A wheel event: cursor screen position and wheel delta. -/
structure WheelEvent where
  mouseX : ℚ
  mouseY : ℚ
  deltaY : ℚ
  deriving DecidableEq, Repr

/-- Fold a sequence of wheel events over the camera. -/
def runWheel (t : Transform) (evs : List WheelEvent) : Transform :=
  evs.foldl (fun s e => handleWheel s e.mouseX e.mouseY e.deltaY) t

/-! ### d3 hierarchy nodes (`CanvasNode`) -/

/-- A d3 hierarchy node as used by `useCanvasTree.ts` (`CanvasNode`): the
wrapped datum's `id` and `url`, the visible `children` list and the collapsed
`_children` list (here `hidden`; the source's `undefined` is `[]`). -/
inductive HNode where
  | mk (id : Nat) (url : Option String) (children : List HNode) (hidden : List HNode)

def HNode.id : HNode → Nat
  | .mk i _ _ _ => i

def HNode.url : HNode → Option String
  | .mk _ u _ _ => u

def HNode.children : HNode → List HNode
  | .mk _ _ c _ => c

def HNode.hidden : HNode → List HNode
  | .mk _ _ _ h => h

mutual
/-- `root.descendants().length` restricted to a subtree: the node itself plus
all nodes reachable through visible `children`. -/
def HNode.size : HNode → Nat
  | .mk _ _ c _ => 1 + HNode.sizeL c

def HNode.sizeL : List HNode → Nat
  | [] => 0
  | n :: r => HNode.size n + HNode.sizeL r
end

mutual
/-- `collectFolderNodes(node)` of `update()`: push the node's id when
`node.depth > 0 && !node.data.url`, then recurse into `node.children`.
The `depth` argument tracks `node.depth` of the d3 hierarchy. -/
def collectFolderNodes (depth : Nat) : HNode → List Nat
  | .mk i u c _ =>
      (if 0 < depth ∧ u = none then [i] else []) ++ collectFolderNodesL (depth + 1) c

def collectFolderNodesL (depth : Nat) : List HNode → List Nat
  | [] => []
  | n :: r => collectFolderNodes depth n ++ collectFolderNodesL depth r
end

/-- The expansion decision of `update()`'s `root.each` pass: for large trees
`d.depth <= 1 || isExpanded`, for small trees `isExpanded`, where
`isExpanded = expandedNodes.value.has(d.data.id)`. -/
def shouldBeExpanded (isLarge : Bool) (exp : List Nat) (depth : Nat) (n : HNode) : Bool :=
  if isLarge then decide (depth ≤ 1) || exp.contains n.id
  else exp.contains n.id

mutual
/-- One `root.each` expansion pass of `update()`: at `depth > 0`, expand
(`children := _children; _children := undefined`) when the node should be
expanded and has hidden children, collapse (`_children := children;
children := undefined`) when it should not be expanded and has visible
children, else leave it; d3's iterator then descends into the children links
that are visible after the callback ran, so a collapsed subtree is not
visited further. -/
def applyPass (isLarge : Bool) (exp : List Nat) : Nat → HNode → HNode
  | depth, .mk i u c h =>
      if 0 < depth then
        let sbe := shouldBeExpanded isLarge exp depth (.mk i u c h)
        if sbe && !h.isEmpty then
          .mk i u (applyPassL isLarge exp (depth + 1) h) []
        else if !sbe && !c.isEmpty then
          .mk i u [] c
        else
          .mk i u (applyPassL isLarge exp (depth + 1) c) h
      else
        .mk i u (applyPassL isLarge exp (depth + 1) c) h

def applyPassL (isLarge : Bool) (exp : List Nat) : Nat → List HNode → List HNode
  | _, [] => []
  | depth, n :: r => applyPass isLarge exp depth n :: applyPassL isLarge exp depth r
end

mutual
/-- The structural view-state invariant: at most one of `children` /
`_children` is populated, hereditarily. -/
def HNode.invB : HNode → Bool
  | .mk _ _ c h => (c.isEmpty || h.isEmpty) && HNode.invBL c && HNode.invBL h

def HNode.invBL : List HNode → Bool
  | [] => true
  | n :: r => HNode.invB n && HNode.invBL r
end

mutual
/-- All node ids of a subtree, visible and hidden alike (with multiplicity). -/
def HNode.allIds : HNode → List Nat
  | .mk i _ c h => i :: (HNode.allIdsL c ++ HNode.allIdsL h)

def HNode.allIdsL : List HNode → List Nat
  | [] => []
  | n :: r => HNode.allIds n ++ HNode.allIdsL r
end

/-- A sequence of expansion passes (each pass: `isLargeTree` flag and the
expanded set at that moment), applied in order starting at depth `d`. -/
def applyPasses (ps : List (Bool × List Nat)) (d : Nat) (n : HNode) : HNode :=
  ps.foldl (fun m p => applyPass p.1 p.2 d m) n

/-! ### Bookmark forest (`BookmarkNode` of `wasmBridge.ts`) -/

/-- `BookmarkNode` of `utils/wasmBridge.ts`, keeping the fields this core's
logic reads (`id`, `url`, `children`, plus `title` which `update()`'s
synthetic root sets); `addDate`, `lastModified`, `icon`, `tags`,
`isDuplicate` and `parentId` are payload this controller only forwards to
rendering colors and are omitted. Ids (strings in the source) are `Nat`. -/
inductive BookmarkNode where
  | mk (id : Nat) (title : String) (url : Option String) (children : List BookmarkNode)

def BookmarkNode.id : BookmarkNode → Nat
  | .mk i _ _ _ => i

def BookmarkNode.url : BookmarkNode → Option String
  | .mk _ _ u _ => u

def BookmarkNode.children : BookmarkNode → List BookmarkNode
  | .mk _ _ _ c => c

mutual
/-- `d3.hierarchy(data)`: a fresh hierarchy with all children visible and no
`_children`. -/
def toH : BookmarkNode → HNode
  | .mk i _ u c => .mk i u (toHL c) []

def toHL : List BookmarkNode → List HNode
  | [] => []
  | n :: r => toH n :: toHL r
end

/-- `update()`'s synthetic root: `d3.hierarchy({ id: 'root', title: 'Root',
url: null, children: treeData.value, ... })`; the string id `'root'` is
represented as `0`. -/
def mkRoot (forest : List BookmarkNode) : HNode :=
  .mk 0 none (toHL forest) []

/-- The id list passed to `onExpandNodes` by `update()`'s first-load branch:
`root.children?.forEach(collectFolderNodes)` with the root's children at
d3 depth 1. -/
def autoExpandRequest (forest : List BookmarkNode) : List Nat :=
  collectFolderNodesL 1 (toHL forest)

mutual
/-- Spec-side description: every folder id of the forest (a folder is a node
without a URL), in preorder. -/
def specFolderIds : BookmarkNode → List Nat
  | .mk i _ u c => (if u = none then [i] else []) ++ specFolderIdsL c

def specFolderIdsL : List BookmarkNode → List Nat
  | [] => []
  | n :: r => specFolderIds n ++ specFolderIdsL r
end

mutual
/-- Spec-side description: the folder ids at depth ≤ `k`, where a top-level
forest node has depth 1 (the synthetic root being depth 0). -/
def foldersLe (k : Nat) (depth : Nat) : BookmarkNode → List Nat
  | .mk i _ u c =>
      (if depth ≤ k ∧ u = none then [i] else []) ++ foldersLeL k (depth + 1) c

def foldersLeL (k : Nat) (depth : Nat) : List BookmarkNode → List Nat
  | [] => []
  | n :: r => foldersLe k depth n ++ foldersLeL k depth r
end

mutual
/-- All node ids of a forest node, with multiplicity. -/
def bnAllIds : BookmarkNode → List Nat
  | .mk i _ _ c => i :: bnAllIdsL c

def bnAllIdsL : List BookmarkNode → List Nat
  | [] => []
  | n :: r => bnAllIds n ++ bnAllIdsL r
end

/-! ### Laid-out nodes, hit testing and drop targets -/

/-- A laid-out node as the hit-testing code sees it: the datum's `id` and
`url` plus the d3 coordinates (`x` is the order axis, `y` the depth axis;
the renderer draws the node at world point `(node.y, node.x)`). -/
structure LaidNode where
  id : Nat
  url : Option String
  x : ℚ
  y : ℚ
  deriving DecidableEq, Repr

/-- Squared world distance from `(worldX, worldY)` to a node's center, with
`dx = worldX - node.y` and `dy = worldY - node.x` as in the source;
`Math.sqrt (dx*dx + dy*dy) < r` is embedded as `sqDist < r*r`. -/
def sqDist (worldX worldY : ℚ) (n : LaidNode) : ℚ :=
  (worldX - n.y) * (worldX - n.y) + (worldY - n.x) * (worldY - n.x)

/-- `findNodeAtPosition(worldX, worldY)`: the first node in layout order
within the pick radius 12 (`distance < 12`, i.e. `sqDist < 144`). -/
def findNodeAtPosition (ns : List LaidNode) (worldX worldY : ℚ) : Option LaidNode :=
  match ns with
  | [] => none
  | n :: r =>
      if sqDist worldX worldY n < 144 then some n
      else findNodeAtPosition r worldX worldY

/-- The three drop zones. -/
inductive Zone where
  | before
  | after
  | inside
  deriving DecidableEq, Repr

/-- The zone assignment of `findDropTargetWithZone` for an accepted candidate:
folders (`!node.data.url`) get `inside` when `|dx| < 30`, else `before` /
`after` by `dy < -15` / `dy > 15`, defaulting to `inside`; bookmarks get
`before` when `dy < 0`, else `after`. -/
def zoneFor (worldX worldY : ℚ) (n : LaidNode) : Zone :=
  let dx := worldX - n.y
  let dy := worldY - n.x
  if n.url = none then
    if |dx| < 30 then .inside
    else if dy < -15 then .before
    else if dy > 15 then .after
    else .inside
  else if dy < 0 then .before else .after

/-- The scanning loop of `findDropTargetWithZone`: skip the dragged node,
accept a candidate when `distance < 80 && distance < minDistance`
(squared: `6400`), recording the node, its squared distance, and its zone. -/
def dropScan (worldX worldY : ℚ) (excludeId : Nat) :
    List LaidNode → Option (LaidNode × ℚ × Zone) → Option (LaidNode × ℚ × Zone)
  | [], acc => acc
  | n :: r, acc =>
      if n.id = excludeId then dropScan worldX worldY excludeId r acc
      else
        let d := sqDist worldX worldY n
        let accept :=
          match acc with
          | none => decide (d < 6400)
          | some (_, minD, _) => decide (d < 6400) && decide (d < minD)
        if accept then
          dropScan worldX worldY excludeId r (some (n, d, zoneFor worldX worldY n))
        else
          dropScan worldX worldY excludeId r acc

/-- `findDropTargetWithZone(worldX, worldY)` with the dragged node excluded
by id: the closest non-excluded node within 80 world units and its zone. -/
def findDropTargetWithZone (ns : List LaidNode) (worldX worldY : ℚ)
    (excludeId : Nat) : Option (LaidNode × Zone) :=
  (dropScan worldX worldY excludeId ns none).map (fun p => (p.1, p.2.2))

/-! ### Gesture controller: pointer-up -/

/-- `dragState` of `useCanvasTree.ts`. -/
structure DragState where
  isDragging : Bool
  draggedNode : Option LaidNode
  dropTarget : Option LaidNode
  dropZone : Option Zone
  ghostX : ℚ
  ghostY : ℚ
  deriving DecidableEq, Repr

/-- The mutable state `handleMouseUp` reads and writes: the drag state, the
laid-out node list and the camera transform. -/
structure GestureState where
  drag : DragState
  nodes : List LaidNode
  transform : Transform
  deriving DecidableEq, Repr

/-- Observable external effects of a pointer-up, in order of occurrence. -/
inductive Eff where
  | callMove (srcId tgtId : Nat) (zone : Zone)
  | callClick (id : Nat)
  | doUpdate
  | doRender
  deriving DecidableEq, Repr

/-- The drag-state reset performed by every arm of `handleMouseUp`. -/
def clearedDrag (d : DragState) : DragState :=
  { d with isDragging := false, draggedNode := none, dropTarget := none,
           dropZone := none }

/-- `handleMouseUp(event)`, drag part. `hasMoveCb` / `hasClickCb` model
whether the optional `onNodeMove` / `onNodeClick` callbacks were supplied;
`moveResolves` models whether the awaited `onNodeMove` promise resolves or
rejects; `(clickX, clickY)` is the release point in screen coordinates.
The panning arm (which only ends panning) and cursor styling are omitted. -/
def handleMouseUp (hasMoveCb hasClickCb moveResolves : Bool)
    (s : GestureState) (clickX clickY : ℚ) : GestureState × List Eff :=
  match s.drag.isDragging, s.drag.draggedNode with
  | true, some dragged =>
      match s.drag.dropTarget, s.drag.dropZone, hasMoveCb with
      | some target, some zone, true =>
          -- `await onNodeMove(...)`: on resolve, reset drag state and
          -- `update()`; on reject, reset drag state and `render()`.
          if moveResolves then
            ({ s with drag := clearedDrag s.drag },
             [.callMove dragged.id target.id zone, .doUpdate])
          else
            ({ s with drag := clearedDrag s.drag },
             [.callMove dragged.id target.id zone, .doRender])
      | none, _, _ =>
          -- click branch: re-resolve the node under the release point
          let wpos := screenToWorld s.transform clickX clickY
          let clicked := findNodeAtPosition s.nodes wpos.1 wpos.2
          let clickEffs :=
            match clicked, hasClickCb with
            | some n, true => [Eff.callClick n.id]
            | _, _ => []
          ({ s with drag := clearedDrag s.drag }, clickEffs ++ [.doRender])
      | _, _, _ =>
          -- target present but no zone, or no move callback: plain reset
          ({ s with drag := clearedDrag s.drag }, [.doRender])
  | _, _ => (s, [])

/-- The node list as `renderNodes()` draws it: while a drag is active the
dragged node itself is skipped. -/
def visibleRenderedNodes (s : GestureState) : List LaidNode :=
  match s.drag.isDragging, s.drag.draggedNode with
  | true, some d => s.nodes.filter (fun n => n ≠ d)
  | _, _ => s.nodes

/-! ### `update()`: rebuild guard and first-load auto-expand -/

/-- The state `update()` reads and writes: inputs `treeData` and
`expandedNodes`, the one-shot flag `hasInitializedExpansion`, and the
computed `nodes`, `links` and camera `transform`. -/
structure CanvasState where
  treeData : List BookmarkNode
  expanded : List Nat
  hasInit : Bool
  nodes : List LaidNode
  links : List (Nat × Nat)
  transform : Transform

/-- `update()`. The d3 `treeLayout(root)` positioning pass is external to the
repository (library code), so it is a parameter `layoutFn` producing the
filtered `nodes` / `links` lists from the expanded hierarchy. Returns the new
state and, when the first-load branch fires, the id list handed to
`onExpandNodes`. -/
def updateModel (layoutFn : HNode → List LaidNode × List (Nat × Nat))
    (s : CanvasState) : CanvasState × Option (List Nat) :=
  if s.treeData.isEmpty then
    -- `if (!treeLayout || treeData.value.length === 0) return`
    (s, none)
  else
    let root := mkRoot s.treeData
    let isLarge := decide (2000 < root.size)
    if !s.hasInit && !s.treeData.isEmpty && s.expanded.isEmpty then
      -- first-load branch: emit the auto-expand request and return early
      ({ s with hasInit := true }, some (autoExpandRequest s.treeData))
    else
      let root2 := applyPass isLarge s.expanded 0 root
      let (ns, ls) := layoutFn root2
      ({ s with nodes := ns, links := ls }, none)

/-- A layout stand-in for closed witnesses. -/
def trivialLayout : HNode → List LaidNode × List (Nat × Nat) :=
  fun _ => ([], [])

/-! ### View-state policy over time (`watch(treeData)` + `update()`) -/

/-- External events driving the policy: the forest reference changing
(`watch(treeData)`) and the expanded set changing (`watch(expandedNodes)`). -/
inductive PolicyEvent where
  | setTree (t : List BookmarkNode)
  | setExpanded (e : List Nat)

/-- The policy-relevant state across events. -/
structure PolicyState where
  tree : List BookmarkNode
  expanded : List Nat
  hasInit : Bool

/-- Top-level ids, as in `treeData.map(n => n.id)` of the watcher. -/
def topIds (f : List BookmarkNode) : List Nat :=
  f.map BookmarkNode.id

/-- The watcher's freshness test:
`newTreeData.length !== oldTreeData.length ||
JSON.stringify(newTreeData.map(n => n.id)) !== JSON.stringify(oldTreeData.map(n => n.id))`. -/
def treeChanged (old new : List BookmarkNode) : Bool :=
  decide (old.length ≠ new.length) || decide (topIds old ≠ topIds new)

/-- The guard of `update()`'s first-load branch (given a non-empty forest). -/
def fireCond (s : PolicyState) : Bool :=
  !s.hasInit && !s.tree.isEmpty && s.expanded.isEmpty

/-- One `update()` call, viewed only through the policy state: whether the
auto-expand request fires, setting `hasInitializedExpansion`. -/
def updateFires (s : PolicyState) : PolicyState × Bool :=
  if s.tree.isEmpty then (s, false)
  else if fireCond s then ({ s with hasInit := true }, true)
  else (s, false)

/-- One external event: the `treeData` watcher first resets
`hasInitializedExpansion` when the forest changed (by its length or
top-level id list), then `update()` runs; the `expandedNodes` watcher just
runs `update()`. -/
def policyStep (s : PolicyState) (ev : PolicyEvent) : PolicyState × Bool :=
  match ev with
  | .setTree t =>
      updateFires
        { s with
            hasInit := if treeChanged s.tree t then false else s.hasInit,
            tree := t }
  | .setExpanded e => updateFires { s with expanded := e }

/-- Run a sequence of events, counting how many times the auto-expand
request fired. -/
def runPolicy : PolicyState → List PolicyEvent → PolicyState × Nat
  | s, [] => (s, 0)
  | s, ev :: r =>
      let st := policyStep s ev
      let rest := runPolicy st.1 r
      (rest.1, (if st.2 then 1 else 0) + rest.2)

/-- How many of the events replace the forest by a fresh one in the
watcher's sense (length or top-level id list differs). -/
def freshCount : List BookmarkNode → List PolicyEvent → Nat
  | _, [] => 0
  | cur, .setTree t :: r => (if treeChanged cur t then 1 else 0) + freshCount t r
  | cur, .setExpanded _ :: r => freshCount cur r

/-- A bookmark leaf used to pad the large concrete forest. -/
def leafW : BookmarkNode := .mk 9 "L" (some "u") []

/-- A depth-2 folder of the large concrete forest. -/
def nodeB : BookmarkNode := .mk 2 "B" none []

/-- A depth-1 folder holding a depth-2 folder and 2000 bookmark leaves. -/
def nodeA : BookmarkNode := .mk 1 "A" none (nodeB :: List.replicate 2000 leafW)

/-- A concrete forest of 2002 nodes (2003 counting the synthetic root),
above the large-tree threshold. -/
def bigForest : List BookmarkNode := [nodeA]

/-! ### Helper lemmas -/

theorem applyPassL_isEmpty (L : Bool) (e : List Nat) (d : Nat) (l : List HNode) :
    (applyPassL L e d l).isEmpty = l.isEmpty := by
  cases l <;> simp [applyPassL]

mutual
theorem invB_applyPass (L : Bool) (e : List Nat) :
    ∀ (d : Nat) (n : HNode), n.invB = true → (applyPass L e d n).invB = true
  | d, .mk i u c h, hinv => by
      simp only [HNode.invB, Bool.and_eq_true, Bool.or_eq_true] at hinv
      obtain ⟨⟨hce, hc⟩, hh⟩ := hinv
      simp only [applyPass]
      split
      · split
        · simp only [HNode.invB, Bool.and_eq_true, Bool.or_eq_true]
          exact ⟨⟨Or.inr rfl, invB_applyPassL L e (d+1) h hh⟩, rfl⟩
        · split
          · simp only [HNode.invB, Bool.and_eq_true, Bool.or_eq_true]
            exact ⟨⟨Or.inl rfl, rfl⟩, hc⟩
          · simp only [HNode.invB, Bool.and_eq_true, Bool.or_eq_true]
            refine ⟨⟨?_, invB_applyPassL L e (d+1) c hc⟩, hh⟩
            rcases hce with hce | hce
            · exact Or.inl (by rw [applyPassL_isEmpty]; exact hce)
            · exact Or.inr hce
      · simp only [HNode.invB, Bool.and_eq_true, Bool.or_eq_true]
        refine ⟨⟨?_, invB_applyPassL L e (d+1) c hc⟩, hh⟩
        rcases hce with hce | hce
        · exact Or.inl (by rw [applyPassL_isEmpty]; exact hce)
        · exact Or.inr hce

theorem invB_applyPassL (L : Bool) (e : List Nat) :
    ∀ (d : Nat) (l : List HNode), HNode.invBL l = true →
      HNode.invBL (applyPassL L e d l) = true
  | _, [], _ => rfl
  | d, n :: r, hinv => by
      simp only [HNode.invBL, Bool.and_eq_true] at hinv
      simp only [applyPassL, HNode.invBL, Bool.and_eq_true]
      exact ⟨invB_applyPass L e d n hinv.1, invB_applyPassL L e d r hinv.2⟩
end

mutual
theorem allIds_applyPass (L : Bool) (e : List Nat) :
    ∀ (d : Nat) (n : HNode), n.invB = true →
      (applyPass L e d n).allIds.Perm n.allIds
  | d, .mk i u c h, hinv => by
      simp only [HNode.invB, Bool.and_eq_true, Bool.or_eq_true] at hinv
      obtain ⟨⟨hce, hc⟩, hh⟩ := hinv
      simp only [applyPass]
      split
      · split
        · rename_i hcond
          simp only [Bool.and_eq_true, Bool.not_eq_true'] at hcond
          have hcnil : c = [] := by
            rcases hce with hce | hce
            · exact List.isEmpty_iff.mp hce
            · rw [hce] at hcond; simp at hcond
          subst hcnil
          simp only [HNode.allIds, HNode.allIdsL, List.append_nil, List.nil_append]
          exact (allIds_applyPassL L e (d+1) h hh).cons i
        · split
          · rename_i hcond1 hcond2
            simp only [Bool.and_eq_true, Bool.not_eq_true'] at hcond2
            have hhnil : h = [] := by
              rcases hce with hce | hce
              · rw [List.isEmpty_iff.mp hce] at hcond2; simp at hcond2
              · exact List.isEmpty_iff.mp hce
            subst hhnil
            simp only [HNode.allIds, HNode.allIdsL, List.append_nil, List.nil_append]
            exact List.Perm.refl _
          · simp only [HNode.allIds]
            exact ((allIds_applyPassL L e (d+1) c hc).append (List.Perm.refl _)).cons i
      · simp only [HNode.allIds]
        exact ((allIds_applyPassL L e (d+1) c hc).append (List.Perm.refl _)).cons i

theorem allIds_applyPassL (L : Bool) (e : List Nat) :
    ∀ (d : Nat) (l : List HNode), HNode.invBL l = true →
      (HNode.allIdsL (applyPassL L e d l)).Perm (HNode.allIdsL l)
  | _, [], _ => List.Perm.refl _
  | d, n :: r, hinv => by
      simp only [HNode.invBL, Bool.and_eq_true] at hinv
      simp only [applyPassL, HNode.allIdsL]
      exact (allIds_applyPass L e d n hinv.1).append (allIds_applyPassL L e d r hinv.2)
end

theorem toHL_replicate (n : Nat) (b : BookmarkNode) :
    toHL (List.replicate n b) = List.replicate n (toH b) := by
  induction n with
  | zero => rfl
  | succ m ih => simp [List.replicate_succ, toHL, ih]

theorem sizeL_replicate (n : Nat) (h : HNode) :
    HNode.sizeL (List.replicate n h) = n * h.size := by
  induction n with
  | zero => simp [HNode.sizeL]
  | succ m ih => simp [List.replicate_succ, HNode.sizeL, ih]; ring

theorem collectL_replicate (n : Nat) (d : Nat) (h : HNode)
    (hc : collectFolderNodes d h = []) :
    collectFolderNodesL d (List.replicate n h) = [] := by
  induction n with
  | zero => rfl
  | succ m ih => simp [List.replicate_succ, collectFolderNodesL, hc, ih]

theorem foldersLeL_replicate (n : Nat) (k d : Nat) (b : BookmarkNode)
    (hc : foldersLe k d b = []) :
    foldersLeL k d (List.replicate n b) = [] := by
  induction n with
  | zero => rfl
  | succ m ih => simp [List.replicate_succ, foldersLeL, hc, ih]

theorem size_mk (i : Nat) (u : Option String) (c h : List HNode) :
    (HNode.mk i u c h).size = 1 + HNode.sizeL c := rfl

theorem sizeL_nil : HNode.sizeL [] = 0 := rfl

theorem sizeL_cons (n : HNode) (r : List HNode) :
    HNode.sizeL (n :: r) = n.size + HNode.sizeL r := rfl

theorem collect_mk (d : Nat) (i : Nat) (u : Option String) (c h : List HNode) :
    collectFolderNodes d (.mk i u c h)
      = (if 0 < d ∧ u = none then [i] else []) ++ collectFolderNodesL (d + 1) c := rfl

theorem collectL_nil (d : Nat) : collectFolderNodesL d [] = [] := rfl

theorem collectL_cons (d : Nat) (n : HNode) (r : List HNode) :
    collectFolderNodesL d (n :: r)
      = collectFolderNodes d n ++ collectFolderNodesL d r := rfl

theorem toH_nodeB : toH nodeB = .mk 2 none [] [] := rfl

theorem toH_leafW : toH leafW = .mk 9 (some "u") [] [] := rfl

theorem toHL_bigForest :
    toHL bigForest = [.mk 1 none (toH nodeB :: List.replicate 2000 (toH leafW)) []] := by
  have h1 : toHL bigForest
      = [HNode.mk 1 none (toH nodeB :: toHL (List.replicate 2000 leafW)) []] := rfl
  rw [h1, toHL_replicate]

theorem bigForest_size : (mkRoot bigForest).size = 2003 := by
  rw [mkRoot, toHL_bigForest]
  simp only [size_mk, sizeL_cons, sizeL_nil, sizeL_replicate, toH_nodeB, toH_leafW]

theorem bigForest_request : autoExpandRequest bigForest = [1, 2] := by
  rw [autoExpandRequest, toHL_bigForest]
  simp only [collectL_cons, collectL_nil, collect_mk, toH_nodeB, toH_leafW,
    collectL_replicate 2000 2 (.mk 9 (some "u") [] []) rfl]
  rfl

theorem foldersLe_mk (k d : Nat) (i : Nat) (t : String) (u : Option String)
    (c : List BookmarkNode) :
    foldersLe k d (.mk i t u c)
      = (if d ≤ k ∧ u = none then [i] else []) ++ foldersLeL k (d + 1) c := rfl

theorem foldersLeL_nil (k d : Nat) : foldersLeL k d [] = [] := rfl

theorem foldersLeL_cons (k d : Nat) (n : BookmarkNode) (r : List BookmarkNode) :
    foldersLeL k d (n :: r) = foldersLe k d n ++ foldersLeL k d r := rfl

theorem bigForest_depthLe1 : foldersLeL 1 1 bigForest = [1] := by
  rw [bigForest, nodeA]
  simp only [foldersLeL_cons, foldersLeL_nil, foldersLe_mk, nodeB,
    foldersLeL_replicate 2000 1 2 leafW rfl]
  norm_num

mutual
theorem collect_toH : ∀ (d : Nat) (b : BookmarkNode), 0 < d →
    collectFolderNodes d (toH b) = specFolderIds b
  | d, .mk i t u c, hd => by
      simp only [toH, collect_mk, specFolderIds]
      rw [collectL_toHL (d + 1) c (Nat.succ_pos d)]
      congr 1
      simp [hd]

theorem collectL_toHL : ∀ (d : Nat) (l : List BookmarkNode), 0 < d →
    collectFolderNodesL d (toHL l) = specFolderIdsL l
  | _, [], _ => rfl
  | d, n :: r, hd => by
      simp only [toHL, collectL_cons, specFolderIdsL]
      rw [collect_toH d n hd, collectL_toHL d r hd]
end

theorem autoExpandRequest_eq_specFolderIds (forest : List BookmarkNode) :
    autoExpandRequest forest = specFolderIdsL forest :=
  collectL_toHL 1 forest Nat.one_pos

mutual
theorem specFolderIds_sublist : ∀ (b : BookmarkNode),
    (specFolderIds b).Sublist (bnAllIds b)
  | .mk i t u c => by
      simp only [specFolderIds, bnAllIds]
      cases u with
      | none =>
          simp only [if_pos rfl, List.singleton_append]
          exact (specFolderIdsL_sublist c).cons₂ i
      | some sv =>
          simp only [reduceCtorEq, if_neg (Option.some_ne_none sv), List.nil_append]
          exact (specFolderIdsL_sublist c).cons i

theorem specFolderIdsL_sublist : ∀ (l : List BookmarkNode),
    (specFolderIdsL l).Sublist (bnAllIdsL l)
  | [] => List.Sublist.refl _
  | n :: r => by
      simp only [specFolderIdsL, bnAllIdsL]
      exact List.Sublist.append (specFolderIds_sublist n) (specFolderIdsL_sublist r)
end

/-! ### Claim theorems -/

/-- C2: for every camera with scale in `[0.1, 3]`, every cursor position and
every wheel step, the world point under the cursor is the same before and
after the zoom (exact over `ℚ`). -/
theorem C2_zoom_to_cursor (t : Transform) (mouseX mouseY deltaY : ℚ)
    (hk : 1/10 ≤ t.k ∧ t.k ≤ 3) :
    screenToWorld (handleWheel t mouseX mouseY deltaY) mouseX mouseY
      = screenToWorld t mouseX mouseY := by
  have hk0 : t.k ≠ 0 := by
    intro h; rw [h] at hk; norm_num at hk
  have hs : (1:ℚ)/10 ≤ max (1/10) (min 3 (t.k * if deltaY > 0 then 9/10 else 11/10)) :=
    le_max_left _ _
  set s := max ((1:ℚ)/10) (min 3 (t.k * if deltaY > 0 then 9/10 else 11/10)) with hsdef
  have hs0 : s ≠ 0 := by intro h; rw [h] at hs; norm_num at hs
  simp only [handleWheel, screenToWorld, ← hsdef]
  refine Prod.ext ?_ ?_ <;> simp only [] <;> field_simp <;> ring

theorem C2_zoom_to_cursor_witness :
    screenToWorld (handleWheel ⟨0, 0, 1⟩ 5 7 1) 5 7 = screenToWorld ⟨0, 0, 1⟩ 5 7 :=
  C2_zoom_to_cursor ⟨0, 0, 1⟩ 5 7 1 (by norm_num)

/-- C7: from any initial scale in `[0.1, 3]`, the scale stays in `[0.1, 3]`
after every wheel event of any delta magnitude and sign (instantiating the
event list at any prefix gives the bound after each event). -/
theorem C7_scale_clamped (t : Transform) (h : 1/10 ≤ t.k ∧ t.k ≤ 3)
    (evs : List WheelEvent) :
    1/10 ≤ (runWheel t evs).k ∧ (runWheel t evs).k ≤ 3 := by
  induction evs generalizing t with
  | nil => exact h
  | cons e rest ih =>
      apply ih
      constructor
      · exact le_max_left _ _
      · simp only [handleWheel]
        exact max_le (by norm_num) (min_le_left _ _)

theorem C7_scale_clamped_witness :
    1/10 ≤ (runWheel ⟨0, 0, 1⟩ [⟨0, 0, 1⟩, ⟨3, 4, -2⟩]).k ∧
      (runWheel ⟨0, 0, 1⟩ [⟨0, 0, 1⟩, ⟨3, 4, -2⟩]).k ≤ 3 :=
  C7_scale_clamped ⟨0, 0, 1⟩ (by norm_num) [⟨0, 0, 1⟩, ⟨3, 4, -2⟩]

/-- C6: for every node satisfying the view-state invariant (at most one of
the visible-children and hidden-children lists populated, hereditarily) and
every sequence of expansion passes driven by expanded sets, the invariant
holds after every pass, and the multiset of ids in the subtree is preserved —
in particular collapsing and then re-expanding neither duplicates nor drops
a node. -/
theorem C6_collapse_expand_preserves (ps : List (Bool × List Nat)) (d : Nat)
    (n : HNode) (hinv : n.invB = true) :
    (applyPasses ps d n).invB = true ∧ (applyPasses ps d n).allIds.Perm n.allIds := by
  induction ps generalizing n with
  | nil => exact ⟨hinv, List.Perm.refl _⟩
  | cons p rest ih =>
      simp only [applyPasses, List.foldl_cons] at *
      obtain ⟨h1, h2⟩ := ih (applyPass p.1 p.2 d n) (invB_applyPass p.1 p.2 d n hinv)
      exact ⟨h1, h2.trans (allIds_applyPass p.1 p.2 d n hinv)⟩

theorem C6_collapse_expand_preserves_witness :
    (applyPasses [(false, []), (false, [1])] 1
        (.mk 1 none [.mk 2 (some "u") [] []] [])).invB = true ∧
      (applyPasses [(false, []), (false, [1])] 1
        (.mk 1 none [.mk 2 (some "u") [] []] [])).allIds.Perm
        (HNode.mk 1 none [.mk 2 (some "u") [] []] []).allIds :=
  C6_collapse_expand_preserves [(false, []), (false, [1])] 1
    (.mk 1 none [.mk 2 (some "u") [] []] []) (by decide)

/-- C1 counterexample: on a forest of more than 2000 nodes with an empty
expanded set at first load, the auto-expand request fires and equals
`[1, 2]`, yet the folder ids at depth ≤ 1 are just `[1]`: the request
contains the depth-2 folder id `2`, refuting the claim that for trees above
the threshold it contains only folder ids at depth ≤ 1
(`collectFolderNodes` never consults `isLargeTree`). -/
theorem C1_large_tree_counterexample :
    (updateModel trivialLayout
        { treeData := bigForest, expanded := [], hasInit := false,
          nodes := [], links := [], transform := ⟨0, 0, 1⟩ }).2
      = some (autoExpandRequest bigForest)
    ∧ 2000 < (mkRoot bigForest).size
    ∧ autoExpandRequest bigForest = [1, 2]
    ∧ foldersLeL 1 1 bigForest = [1] := by
  refine ⟨rfl, ?_, bigForest_request, bigForest_depthLe1⟩
  rw [bigForest_size]
  norm_num

/-- C1 (amended): for every forest with an empty expanded set at first load,
the one-time auto-expand request contains every folder id — at all depths,
regardless of the total node count — and, since node ids are unique, each
exactly once; the large-tree threshold affects only which nodes the
expansion pass collapses, not the contents of the request. -/
theorem C1_auto_expand_all_folders (f : HNode → List LaidNode × List (Nat × Nat))
    (s : CanvasState) (h1 : s.hasInit = false) (h2 : s.expanded = [])
    (h3 : s.treeData ≠ []) :
    (updateModel f s).2 = some (specFolderIdsL s.treeData)
    ∧ ((bnAllIdsL s.treeData).Nodup → (specFolderIdsL s.treeData).Nodup) := by
  constructor
  · have hne : s.treeData.isEmpty = false := by
      cases htd : s.treeData with
      | nil => exact absurd htd h3
      | cons a r => rfl
    simp [updateModel, hne, h1, h2, autoExpandRequest_eq_specFolderIds]
  · intro hnd
    exact hnd.sublist (specFolderIdsL_sublist s.treeData)

theorem C1_auto_expand_all_folders_witness :
    (updateModel trivialLayout
        { treeData := [.mk 1 "A" none []], expanded := [], hasInit := false,
          nodes := [], links := [], transform := ⟨0, 0, 1⟩ }).2
      = some (specFolderIdsL [.mk 1 "A" none []])
    ∧ ((bnAllIdsL [.mk 1 "A" none []]).Nodup →
        (specFolderIdsL [.mk 1 "A" none []]).Nodup) :=
  C1_auto_expand_all_folders trivialLayout
    { treeData := [.mk 1 "A" none []], expanded := [], hasInit := false,
      nodes := [], links := [], transform := ⟨0, 0, 1⟩ }
    rfl rfl (List.cons_ne_nil _ _)

theorem findNodeAtPosition_none_iff (ns : List LaidNode) (wx wy : ℚ) :
    findNodeAtPosition ns wx wy = none ↔ ∀ n ∈ ns, 144 ≤ sqDist wx wy n := by
  induction ns with
  | nil => simp [findNodeAtPosition]
  | cons n r ih =>
      simp only [findNodeAtPosition, List.mem_cons]
      split
      · rename_i hlt
        constructor
        · intro h; exact absurd h (by simp)
        · intro h
          exact absurd (h n (Or.inl rfl)) (not_le.mpr hlt)
      · rename_i hge
        rw [ih]
        constructor
        · intro h m hm
          rcases hm with hm | hm
          · subst hm; exact not_lt.mp hge
          · exact h m hm
        · intro h m hm
          exact h m (Or.inr hm)

theorem findNodeAtPosition_first (ns : List LaidNode) (wx wy : ℚ) (n : LaidNode)
    (h : findNodeAtPosition ns wx wy = some n) :
    ∃ l1 l2, ns = l1 ++ n :: l2 ∧ sqDist wx wy n < 144 ∧
      ∀ m ∈ l1, 144 ≤ sqDist wx wy m := by
  induction ns with
  | nil => simp [findNodeAtPosition] at h
  | cons a r ih =>
      simp only [findNodeAtPosition] at h
      split at h
      · rename_i hlt
        obtain rfl : a = n := by injection h
        exact ⟨[], r, rfl, hlt, by simp⟩
      · rename_i hge
        obtain ⟨l1, l2, hsplit, hn, hmin⟩ := ih h
        refine ⟨a :: l1, l2, by rw [hsplit]; rfl, hn, ?_⟩
        intro m hm
        rcases List.mem_cons.mp hm with hm | hm
        · subst hm; exact not_lt.mp hge
        · exact hmin m hm

theorem findNodeAtPosition_isolated (ns : List LaidNode) (wx wy : ℚ) (d : LaidNode)
    (hd : d ∈ ns) (hlt : sqDist wx wy d < 144)
    (hothers : ∀ m ∈ ns, m ≠ d → 144 ≤ sqDist wx wy m) :
    findNodeAtPosition ns wx wy = some d := by
  induction ns with
  | nil => simp at hd
  | cons a r ih =>
      simp only [findNodeAtPosition]
      split
      · rename_i halt
        by_cases had : a = d
        · rw [had]
        · exact absurd (hothers a (List.mem_cons_self a r) had) (not_le.mpr halt)
      · rename_i hage
        have had : a ≠ d := by
          intro h; rw [h] at hage; exact hage hlt
        have hdr : d ∈ r := by
          rcases List.mem_cons.mp hd with h | h
          · exact absurd h.symm had
          · exact h
        exact ih hdr (fun m hm hmne => hothers m (List.mem_cons_of_mem a hm) hmne)

/-- C5: `findNodeAtPosition` implements first-match picking with radius 12:
(1) it returns `none` exactly when every laid-out node is at (squared)
distance ≥ 144 from the point; (2) a returned node is the first in layout
order within the radius; (3) a click exactly at the center of a node, when
every other node is outside the pick radius of the click (d3's
`nodeSize([30, 200])` keeps distinct centers ≥ 30 > 24 apart), resolves to
that node. -/
theorem C5_first_match_hit_testing (ns : List LaidNode) (wx wy : ℚ) :
    (findNodeAtPosition ns wx wy = none ↔ ∀ n ∈ ns, 144 ≤ sqDist wx wy n)
    ∧ (∀ n, findNodeAtPosition ns wx wy = some n →
        ∃ l1 l2, ns = l1 ++ n :: l2 ∧ sqDist wx wy n < 144 ∧
          ∀ m ∈ l1, 144 ≤ sqDist wx wy m)
    ∧ (∀ n ∈ ns, wx = n.y ∧ wy = n.x →
        (∀ m ∈ ns, m ≠ n → 144 ≤ sqDist wx wy m) →
        findNodeAtPosition ns wx wy = some n) := by
  refine ⟨findNodeAtPosition_none_iff ns wx wy,
    fun n h => findNodeAtPosition_first ns wx wy n h,
    fun n hn hcenter hothers => ?_⟩
  refine findNodeAtPosition_isolated ns wx wy n hn ?_ hothers
  rw [sqDist, hcenter.1, hcenter.2]
  norm_num

theorem C5_first_match_hit_testing_witness :
    findNodeAtPosition [⟨1, some "u", 0, 0⟩, ⟨2, none, 40, 300⟩] 300 40
      = some ⟨2, none, 40, 300⟩ :=
  (C5_first_match_hit_testing [⟨1, some "u", 0, 0⟩, ⟨2, none, 40, 300⟩] 300 40).2.2
    ⟨2, none, 40, 300⟩ (List.mem_cons_of_mem _ (List.mem_cons_self _ _))
    ⟨rfl, rfl⟩
    (by
      simp only [List.mem_cons, List.not_mem_nil, or_false]
      rintro m (rfl | rfl) hne
      · norm_num [sqDist]
      · exact absurd rfl hne)

theorem dropScan_some_of_some (wx wy : ℚ) (ex : Nat) :
    ∀ (l : List LaidNode) (t0 : LaidNode) (d0 : ℚ) (z0 : Zone),
      ∃ t1 d1 z1, dropScan wx wy ex l (some (t0, d0, z0)) = some (t1, d1, z1) ∧ d1 ≤ d0
  | [], t0, d0, z0 => ⟨t0, d0, z0, rfl, le_refl _⟩
  | n :: r, t0, d0, z0 => by
      simp only [dropScan]
      split
      · exact dropScan_some_of_some wx wy ex r t0 d0 z0
      · split
        · rename_i hid hacc
          simp only [Bool.and_eq_true, decide_eq_true_eq] at hacc
          obtain ⟨t1, d1, z1, heq, hle⟩ :=
            dropScan_some_of_some wx wy ex r n (sqDist wx wy n) (zoneFor wx wy n)
          exact ⟨t1, d1, z1, heq, le_of_lt (lt_of_le_of_lt hle hacc.2)⟩
        · exact dropScan_some_of_some wx wy ex r t0 d0 z0

theorem dropScan_mono (wx wy : ℚ) (ex : Nat) :
    ∀ (l : List LaidNode) (t0 t1 : LaidNode) (d0 d1 : ℚ) (z0 z1 : Zone),
      dropScan wx wy ex l (some (t0, d0, z0)) = some (t1, d1, z1) → d1 ≤ d0 := by
  intro l t0 t1 d0 d1 z0 z1 heq
  obtain ⟨t2, d2, z2, heq2, hle⟩ := dropScan_some_of_some wx wy ex l t0 d0 z0
  rw [heq] at heq2
  obtain ⟨rfl, rfl, rfl⟩ : t2 = t1 ∧ d2 = d1 ∧ z2 = z1 := by
    have h1 := heq2.symm
    simp only [Option.some.injEq, Prod.mk.injEq] at h1
    exact ⟨h1.1, h1.2.1, h1.2.2⟩
  exact hle

theorem dropScan_some_spec (wx wy : ℚ) (ex : Nat) :
    ∀ (l : List LaidNode) (acc : Option (LaidNode × ℚ × Zone))
      (t : LaidNode) (dq : ℚ) (z : Zone),
      (acc = none ∨ ∃ t0 d0 z0, acc = some (t0, d0, z0) ∧ t0.id ≠ ex ∧
        d0 = sqDist wx wy t0 ∧ d0 < 6400 ∧ z0 = zoneFor wx wy t0) →
      dropScan wx wy ex l acc = some (t, dq, z) →
      t.id ≠ ex ∧ dq = sqDist wx wy t ∧ dq < 6400 ∧ z = zoneFor wx wy t ∧
        (t ∈ l ∨ acc = some (t, dq, z))
  | [], acc, t, dq, z, hacc, heq => by
      simp only [dropScan] at heq
      rcases hacc with hacc | ⟨t0, d0, z0, hacc, hid, hd, hlt, hz⟩
      · rw [hacc] at heq; exact absurd heq (by simp)
      · rw [hacc] at heq
        obtain ⟨rfl, rfl, rfl⟩ : t0 = t ∧ d0 = dq ∧ z0 = z := by
          simp only [Option.some.injEq, Prod.mk.injEq] at heq
          exact ⟨heq.1, heq.2.1, heq.2.2⟩
        exact ⟨hid, hd, hlt, hz, Or.inr hacc⟩
  | n :: r, acc, t, dq, z, hacc, heq => by
      simp only [dropScan] at heq
      split at heq
      · rename_i hid
        obtain ⟨h1, h2, h3, h4, h5⟩ := dropScan_some_spec wx wy ex r acc t dq z hacc heq
        refine ⟨h1, h2, h3, h4, ?_⟩
        rcases h5 with h5 | h5
        · exact Or.inl (List.mem_cons_of_mem n h5)
        · exact Or.inr h5
      · split at heq
        · rename_i hid hcond
          have hacc2 : (some (n, sqDist wx wy n, zoneFor wx wy n) =
              (none : Option (LaidNode × ℚ × Zone))) ∨
              ∃ t0 d0 z0, some (n, sqDist wx wy n, zoneFor wx wy n) = some (t0, d0, z0) ∧
                t0.id ≠ ex ∧ d0 = sqDist wx wy t0 ∧ d0 < 6400 ∧ z0 = zoneFor wx wy t0 := by
            refine Or.inr ⟨n, sqDist wx wy n, zoneFor wx wy n, rfl, hid, rfl, ?_, rfl⟩
            rcases hacc with hacc | ⟨t0, d0, z0, haeq, _, _, _, _⟩
            · rw [hacc] at hcond
              simpa using hcond
            · rw [haeq] at hcond
              simp only [Bool.and_eq_true, decide_eq_true_eq] at hcond
              exact hcond.1
          obtain ⟨h1, h2, h3, h4, h5⟩ := dropScan_some_spec wx wy ex r
            (some (n, sqDist wx wy n, zoneFor wx wy n)) t dq z hacc2 heq
          refine ⟨h1, h2, h3, h4, ?_⟩
          rcases h5 with h5 | h5
          · exact Or.inl (List.mem_cons_of_mem n h5)
          · obtain ⟨rfl, -, -⟩ : n = t ∧ sqDist wx wy n = dq ∧ zoneFor wx wy n = z := by
              simp only [Option.some.injEq, Prod.mk.injEq] at h5
              exact ⟨h5.1, h5.2.1, h5.2.2⟩
            exact Or.inl (List.mem_cons_self _ _)
        · rename_i hid hcond
          obtain ⟨h1, h2, h3, h4, h5⟩ := dropScan_some_spec wx wy ex r acc t dq z hacc heq
          refine ⟨h1, h2, h3, h4, ?_⟩
          rcases h5 with h5 | h5
          · exact Or.inl (List.mem_cons_of_mem n h5)
          · exact Or.inr h5

theorem dropScan_min (wx wy : ℚ) (ex : Nat) :
    ∀ (l : List LaidNode) (acc : Option (LaidNode × ℚ × Zone))
      (t : LaidNode) (dq : ℚ) (z : Zone),
      dropScan wx wy ex l acc = some (t, dq, z) →
      ∀ n ∈ l, n.id ≠ ex → dq ≤ sqDist wx wy n ∨ 6400 ≤ sqDist wx wy n
  | [], _, _, _, _, _, n, hn, _ => absurd hn (List.not_mem_nil n)
  | a :: r, acc, t, dq, z, heq, n, hn, hnid => by
      simp only [dropScan] at heq
      rcases List.mem_cons.mp hn with rfl | hnr
      · -- n is the head
        split at heq
        · rename_i hid; exact absurd hid hnid
        · split at heq
          · -- head accepted: the final distance is ≤ the head's distance
            exact Or.inl (le_of_le_of_eq (dropScan_mono wx wy ex r _ t _ dq _ z heq) rfl)
          · rename_i hid hcond
            -- head rejected: it is ≥ 80 away, or the accumulator was closer
            rcases acc with - | ⟨t0, d0, z0⟩
            · simp only [decide_eq_true_eq] at hcond
              exact Or.inr (not_lt.mp hcond)
            · simp only [Bool.and_eq_true, decide_eq_true_eq, not_and, not_lt] at hcond
              by_cases h80 : sqDist wx wy n < 6400
              · exact Or.inl (le_trans (dropScan_mono wx wy ex r _ t _ dq _ z heq)
                  (hcond h80))
              · exact Or.inr (not_lt.mp h80)
      · -- n is in the tail
        split at heq
        · exact dropScan_min wx wy ex r acc t dq z heq n hnr hnid
        · split at heq
          · exact dropScan_min wx wy ex r _ t dq z heq n hnr hnid
          · exact dropScan_min wx wy ex r acc t dq z heq n hnr hnid

theorem dropScan_none_iff (wx wy : ℚ) (ex : Nat) :
    ∀ (l : List LaidNode),
      dropScan wx wy ex l none = none ↔ ∀ n ∈ l, n.id = ex ∨ 6400 ≤ sqDist wx wy n
  | [] => by simp [dropScan]
  | a :: r => by
      simp only [dropScan]
      split
      · rename_i hid
        rw [dropScan_none_iff wx wy ex r]
        constructor
        · intro h n hn
          rcases List.mem_cons.mp hn with rfl | hnr
          · exact Or.inl hid
          · exact h n hnr
        · intro h n hn
          exact h n (List.mem_cons_of_mem a hn)
      · split
        · rename_i hid hcond
          simp only [decide_eq_true_eq] at hcond
          constructor
          · intro h
            obtain ⟨t1, d1, z1, heq, -⟩ :=
              dropScan_some_of_some wx wy ex r a (sqDist wx wy a) (zoneFor wx wy a)
            rw [heq] at h
            exact absurd h (by simp)
          · intro h
            rcases h a (List.mem_cons_self a r) with h | h
            · exact absurd h hid
            · exact absurd hcond (not_lt.mpr h)
        · rename_i hid hcond
          simp only [decide_eq_true_eq, not_lt] at hcond
          rw [dropScan_none_iff wx wy ex r]
          constructor
          · intro h n hn
            rcases List.mem_cons.mp hn with rfl | hnr
            · exact Or.inr hcond
            · exact h n hnr
          · intro h n hn
            exact h n (List.mem_cons_of_mem a hn)

theorem zoneFor_leaf_not_inside (wx wy : ℚ) (n : LaidNode) (h : n.url ≠ none) :
    zoneFor wx wy n ≠ Zone.inside := by
  simp only [zoneFor]
  rw [if_neg h]
  split <;> simp

/-- C3: `findDropTargetWithZone` returns, among laid-out nodes other than the
dragged one, a node of minimal distance, within 80 world units (squared:
6400), with the zone classified from its `Δx`/`Δy` exactly as the claim
states (folders: `|Δx| < 30` → inside, else `Δy < -15` → before,
`Δy > 15` → after, else inside; leaves: `Δy < 0` → before else after, never
inside), and `none` exactly when no non-excluded node is within range; the
returned target never carries the excluded (dragged) id. -/
theorem C3_drop_target_spec (ns : List LaidNode) (wx wy : ℚ) (ex : Nat) :
    (∀ t z, findDropTargetWithZone ns wx wy ex = some (t, z) →
      t.id ≠ ex ∧ t ∈ ns ∧ sqDist wx wy t < 6400 ∧
      (∀ n ∈ ns, n.id ≠ ex → sqDist wx wy t ≤ sqDist wx wy n) ∧
      z = zoneFor wx wy t ∧ (t.url ≠ none → z ≠ Zone.inside))
    ∧ (findDropTargetWithZone ns wx wy ex = none ↔
        ∀ n ∈ ns, n.id = ex ∨ 6400 ≤ sqDist wx wy n) := by
  constructor
  · intro t z heq
    simp only [findDropTargetWithZone, Option.map_eq_some'] at heq
    obtain ⟨⟨t', dq', z'⟩, hscan, hpair⟩ := heq
    simp only [Prod.mk.injEq] at hpair
    rw [hpair.1, hpair.2] at hscan
    obtain ⟨h1, h2, h3, h4, h5⟩ :=
      dropScan_some_spec wx wy ex ns none t dq' z (Or.inl rfl) hscan
    have hmem : t ∈ ns := by
      rcases h5 with h5 | h5
      · exact h5
      · exact absurd h5 (by simp)
    refine ⟨h1, hmem, h2 ▸ h3, ?_, h4, fun hurl => h4 ▸ zoneFor_leaf_not_inside wx wy t hurl⟩
    intro n hn hnid
    rcases dropScan_min wx wy ex ns none t dq' z hscan n hn hnid with h | h
    · exact h2 ▸ h
    · exact le_trans (le_of_lt (h2 ▸ h3)) h
  · rw [findDropTargetWithZone]
    rw [Option.map_eq_none']
    exact dropScan_none_iff wx wy ex ns

theorem C3_drop_target_spec_witness :
    (⟨2, none, 0, 50⟩ : LaidNode).id ≠ 1 ∧ (⟨2, none, 0, 50⟩ : LaidNode) ∈
        [⟨1, none, 0, 0⟩, ⟨2, none, 0, 50⟩] ∧
      sqDist 0 0 ⟨2, none, 0, 50⟩ < 6400 ∧
      (∀ n ∈ [(⟨1, none, 0, 0⟩ : LaidNode), ⟨2, none, 0, 50⟩], n.id ≠ 1 →
        sqDist 0 0 ⟨2, none, 0, 50⟩ ≤ sqDist 0 0 n) ∧
      Zone.inside = zoneFor 0 0 ⟨2, none, 0, 50⟩ ∧
      ((⟨2, none, 0, 50⟩ : LaidNode).url ≠ none → Zone.inside ≠ Zone.inside) :=
  (C3_drop_target_spec [⟨1, none, 0, 0⟩, ⟨2, none, 0, 50⟩] 0 0 1).1
    ⟨2, none, 0, 50⟩ Zone.inside
    (by norm_num [findDropTargetWithZone, dropScan, sqDist, zoneFor])

/-- C4: for every pointer-up ending a drag with a resolved target and zone
(and a move callback supplied), the move callback is invoked exactly once
with `(draggedId, targetId, zone)`; and when it rejects, the drag state is
fully cleared, the laid-out nodes and the camera are untouched (no `update()`
runs, so neither layout nor forest is mutated by this core), and the
re-render shows the dragged node again, unchanged, at its original
position. -/
theorem C4_move_callback_once_and_reject_cleanup
    (hasClickCb moveResolves : Bool) (s : GestureState) (clickX clickY : ℚ)
    (dn tn : LaidNode) (z : Zone)
    (hdrag : s.drag.isDragging = true)
    (hdn : s.drag.draggedNode = some dn)
    (htn : s.drag.dropTarget = some tn)
    (hz : s.drag.dropZone = some z) :
    (handleMouseUp true hasClickCb moveResolves s clickX clickY).2
      = [Eff.callMove dn.id tn.id z,
         if moveResolves then Eff.doUpdate else Eff.doRender]
    ∧ ((handleMouseUp true hasClickCb moveResolves s clickX clickY).2.count
         (Eff.callMove dn.id tn.id z) = 1)
    ∧ (moveResolves = false →
        (handleMouseUp true hasClickCb moveResolves s clickX clickY).1.drag.isDragging
            = false
        ∧ (handleMouseUp true hasClickCb moveResolves s clickX clickY).1.drag.draggedNode
            = none
        ∧ (handleMouseUp true hasClickCb moveResolves s clickX clickY).1.drag.dropTarget
            = none
        ∧ (handleMouseUp true hasClickCb moveResolves s clickX clickY).1.drag.dropZone
            = none
        ∧ (handleMouseUp true hasClickCb moveResolves s clickX clickY).1.nodes = s.nodes
        ∧ (handleMouseUp true hasClickCb moveResolves s clickX clickY).1.transform
            = s.transform
        ∧ Eff.doUpdate ∉ (handleMouseUp true hasClickCb moveResolves s clickX clickY).2
        ∧ Eff.doRender ∈ (handleMouseUp true hasClickCb moveResolves s clickX clickY).2
        ∧ visibleRenderedNodes
            (handleMouseUp true hasClickCb moveResolves s clickX clickY).1 = s.nodes) := by
  cases moveResolves with
  | true =>
      refine ⟨?_, ?_, by simp⟩ <;>
        simp [handleMouseUp, hdrag, hdn, htn, hz, List.count_cons]
  | false =>
      refine ⟨?_, ?_, fun _ => ?_⟩
      · simp [handleMouseUp, hdrag, hdn, htn, hz]
      · simp [handleMouseUp, hdrag, hdn, htn, hz, List.count_cons]
      · simp [handleMouseUp, hdrag, hdn, htn, hz, clearedDrag, visibleRenderedNodes]

theorem C4_move_callback_once_and_reject_cleanup_witness :
    (handleMouseUp true true false
        ⟨⟨true, some ⟨1, some "a", 0, 0⟩, some ⟨2, none, 0, 50⟩, some Zone.inside, 0, 0⟩,
         [⟨1, some "a", 0, 0⟩, ⟨2, none, 0, 50⟩], ⟨0, 0, 1⟩⟩ 0 0).2
      = [Eff.callMove 1 2 Zone.inside,
         if false then Eff.doUpdate else Eff.doRender]
    ∧ ((handleMouseUp true true false
        ⟨⟨true, some ⟨1, some "a", 0, 0⟩, some ⟨2, none, 0, 50⟩, some Zone.inside, 0, 0⟩,
         [⟨1, some "a", 0, 0⟩, ⟨2, none, 0, 50⟩], ⟨0, 0, 1⟩⟩ 0 0).2.count
         (Eff.callMove 1 2 Zone.inside) = 1)
    ∧ (false = false →
        (handleMouseUp true true false
        ⟨⟨true, some ⟨1, some "a", 0, 0⟩, some ⟨2, none, 0, 50⟩, some Zone.inside, 0, 0⟩,
         [⟨1, some "a", 0, 0⟩, ⟨2, none, 0, 50⟩], ⟨0, 0, 1⟩⟩ 0 0).1.drag.isDragging = false
        ∧ (handleMouseUp true true false
        ⟨⟨true, some ⟨1, some "a", 0, 0⟩, some ⟨2, none, 0, 50⟩, some Zone.inside, 0, 0⟩,
         [⟨1, some "a", 0, 0⟩, ⟨2, none, 0, 50⟩], ⟨0, 0, 1⟩⟩ 0 0).1.drag.draggedNode = none
        ∧ (handleMouseUp true true false
        ⟨⟨true, some ⟨1, some "a", 0, 0⟩, some ⟨2, none, 0, 50⟩, some Zone.inside, 0, 0⟩,
         [⟨1, some "a", 0, 0⟩, ⟨2, none, 0, 50⟩], ⟨0, 0, 1⟩⟩ 0 0).1.drag.dropTarget = none
        ∧ (handleMouseUp true true false
        ⟨⟨true, some ⟨1, some "a", 0, 0⟩, some ⟨2, none, 0, 50⟩, some Zone.inside, 0, 0⟩,
         [⟨1, some "a", 0, 0⟩, ⟨2, none, 0, 50⟩], ⟨0, 0, 1⟩⟩ 0 0).1.drag.dropZone = none
        ∧ (handleMouseUp true true false
        ⟨⟨true, some ⟨1, some "a", 0, 0⟩, some ⟨2, none, 0, 50⟩, some Zone.inside, 0, 0⟩,
         [⟨1, some "a", 0, 0⟩, ⟨2, none, 0, 50⟩], ⟨0, 0, 1⟩⟩ 0 0).1.nodes
            = [⟨1, some "a", 0, 0⟩, ⟨2, none, 0, 50⟩]
        ∧ (handleMouseUp true true false
        ⟨⟨true, some ⟨1, some "a", 0, 0⟩, some ⟨2, none, 0, 50⟩, some Zone.inside, 0, 0⟩,
         [⟨1, some "a", 0, 0⟩, ⟨2, none, 0, 50⟩], ⟨0, 0, 1⟩⟩ 0 0).1.transform = ⟨0, 0, 1⟩
        ∧ Eff.doUpdate ∉ (handleMouseUp true true false
        ⟨⟨true, some ⟨1, some "a", 0, 0⟩, some ⟨2, none, 0, 50⟩, some Zone.inside, 0, 0⟩,
         [⟨1, some "a", 0, 0⟩, ⟨2, none, 0, 50⟩], ⟨0, 0, 1⟩⟩ 0 0).2
        ∧ Eff.doRender ∈ (handleMouseUp true true false
        ⟨⟨true, some ⟨1, some "a", 0, 0⟩, some ⟨2, none, 0, 50⟩, some Zone.inside, 0, 0⟩,
         [⟨1, some "a", 0, 0⟩, ⟨2, none, 0, 50⟩], ⟨0, 0, 1⟩⟩ 0 0).2
        ∧ visibleRenderedNodes (handleMouseUp true true false
        ⟨⟨true, some ⟨1, some "a", 0, 0⟩, some ⟨2, none, 0, 50⟩, some Zone.inside, 0, 0⟩,
         [⟨1, some "a", 0, 0⟩, ⟨2, none, 0, 50⟩], ⟨0, 0, 1⟩⟩ 0 0).1
            = [⟨1, some "a", 0, 0⟩, ⟨2, none, 0, 50⟩]) :=
  C4_move_callback_once_and_reject_cleanup true false
    ⟨⟨true, some ⟨1, some "a", 0, 0⟩, some ⟨2, none, 0, 50⟩, some Zone.inside, 0, 0⟩,
     [⟨1, some "a", 0, 0⟩, ⟨2, none, 0, 50⟩], ⟨0, 0, 1⟩⟩ 0 0
    ⟨1, some "a", 0, 0⟩ ⟨2, none, 0, 50⟩ Zone.inside rfl rfl rfl rfl

/-- C9: for every pointer-up ending a drag with no resolved drop target,
when the release point (converted to world coordinates) lies within the pick
radius of the dragged (pressed) node and outside the pick radius of every
other laid-out node, the external node-click callback is invoked with that
node, no move request is issued, and the drag state is cleared. -/
theorem C9_click_fallback (hasMoveCb moveResolves : Bool) (s : GestureState)
    (clickX clickY : ℚ) (dn : LaidNode)
    (hdrag : s.drag.isDragging = true)
    (hdn : s.drag.draggedNode = some dn)
    (htn : s.drag.dropTarget = none)
    (hmem : dn ∈ s.nodes)
    (hnear : sqDist (screenToWorld s.transform clickX clickY).1
        (screenToWorld s.transform clickX clickY).2 dn < 144)
    (hothers : ∀ n ∈ s.nodes, n ≠ dn →
        144 ≤ sqDist (screenToWorld s.transform clickX clickY).1
          (screenToWorld s.transform clickX clickY).2 n) :
    (handleMouseUp hasMoveCb true moveResolves s clickX clickY).2
      = [Eff.callClick dn.id, Eff.doRender]
    ∧ (∀ a b zz, Eff.callMove a b zz ∉
        (handleMouseUp hasMoveCb true moveResolves s clickX clickY).2)
    ∧ (handleMouseUp hasMoveCb true moveResolves s clickX clickY).1.drag.isDragging
        = false
    ∧ (handleMouseUp hasMoveCb true moveResolves s clickX clickY).1.drag.draggedNode
        = none := by
  have hfind : findNodeAtPosition s.nodes
      (screenToWorld s.transform clickX clickY).1
      (screenToWorld s.transform clickX clickY).2 = some dn :=
    findNodeAtPosition_isolated _ _ _ dn hmem hnear hothers
  refine ⟨?_, ?_, ?_, ?_⟩ <;>
    simp [handleMouseUp, hdrag, hdn, htn, hfind, clearedDrag]

theorem C9_click_fallback_witness :
    (handleMouseUp true true true
        ⟨⟨true, some ⟨1, some "a", 0, 0⟩, none, none, 0, 0⟩,
         [⟨1, some "a", 0, 0⟩, ⟨2, none, 0, 50⟩], ⟨0, 0, 1⟩⟩ 3 0).2
      = [Eff.callClick 1, Eff.doRender]
    ∧ (∀ a b zz, Eff.callMove a b zz ∉
        (handleMouseUp true true true
        ⟨⟨true, some ⟨1, some "a", 0, 0⟩, none, none, 0, 0⟩,
         [⟨1, some "a", 0, 0⟩, ⟨2, none, 0, 50⟩], ⟨0, 0, 1⟩⟩ 3 0).2)
    ∧ (handleMouseUp true true true
        ⟨⟨true, some ⟨1, some "a", 0, 0⟩, none, none, 0, 0⟩,
         [⟨1, some "a", 0, 0⟩, ⟨2, none, 0, 50⟩], ⟨0, 0, 1⟩⟩ 3 0).1.drag.isDragging
        = false
    ∧ (handleMouseUp true true true
        ⟨⟨true, some ⟨1, some "a", 0, 0⟩, none, none, 0, 0⟩,
         [⟨1, some "a", 0, 0⟩, ⟨2, none, 0, 50⟩], ⟨0, 0, 1⟩⟩ 3 0).1.drag.draggedNode
        = none :=
  C9_click_fallback true true
    ⟨⟨true, some ⟨1, some "a", 0, 0⟩, none, none, 0, 0⟩,
     [⟨1, some "a", 0, 0⟩, ⟨2, none, 0, 50⟩], ⟨0, 0, 1⟩⟩ 3 0
    ⟨1, some "a", 0, 0⟩ rfl rfl rfl (List.mem_cons_self _ _)
    (by norm_num [screenToWorld, sqDist])
    (by
      simp only [List.mem_cons, List.not_mem_nil, or_false]
      rintro n (rfl | rfl) hne
      · exact absurd rfl hne
      · norm_num [screenToWorld, sqDist])

/-- C10: when the input forest is empty, `update()` returns immediately: the
whole state — previously computed node list, link list and camera transform —
is unchanged and no auto-expand request is emitted, so clearing the forest
does not clear the displayed layout. -/
theorem C10_empty_forest_noop (f : HNode → List LaidNode × List (Nat × Nat))
    (s : CanvasState) (h : s.treeData = []) :
    updateModel f s = (s, none) := by
  simp [updateModel, h]

theorem C10_empty_forest_noop_witness :
    updateModel trivialLayout
        { treeData := [], expanded := [5], hasInit := true,
          nodes := [⟨1, none, 2, 3⟩], links := [(0, 1)], transform := ⟨1, 2, 3⟩ }
      = ({ treeData := [], expanded := [5], hasInit := true,
           nodes := [⟨1, none, 2, 3⟩], links := [(0, 1)], transform := ⟨1, 2, 3⟩ }, none) :=
  C10_empty_forest_noop trivialLayout
    { treeData := [], expanded := [5], hasInit := true,
      nodes := [⟨1, none, 2, 3⟩], links := [(0, 1)], transform := ⟨1, 2, 3⟩ } rfl


theorem updateFires_tree (s : PolicyState) : (updateFires s).1.tree = s.tree := by
  by_cases h1 : s.tree.isEmpty = true
  · simp [updateFires, h1]
  · by_cases h2 : fireCond s = true
    · simp [updateFires, h1, h2]
    · simp [updateFires, h1, h2]

theorem updateFires_fired (s : PolicyState) (h : (updateFires s).2 = true) :
    s.hasInit = false ∧ (updateFires s).1.hasInit = true := by
  by_cases h1 : s.tree.isEmpty = true
  · simp [updateFires, h1] at h
  · by_cases h2 : fireCond s = true
    · have hinit : s.hasInit = false := by
        simp only [fireCond, Bool.and_eq_true, Bool.not_eq_true'] at h2
        exact h2.1.1
      exact ⟨hinit, by simp [updateFires, h1, h2]⟩
    · simp [updateFires, h1, h2] at h

theorem updateFires_not_fired (s : PolicyState) (h : (updateFires s).2 = false) :
    (updateFires s).1.hasInit = s.hasInit := by
  by_cases h1 : s.tree.isEmpty = true
  · simp [updateFires, h1]
  · by_cases h2 : fireCond s = true
    · simp [updateFires, h1, h2] at h
    · simp [updateFires, h1, h2]

theorem policyStep_tree_setTree (s : PolicyState) (t : List BookmarkNode) :
    (policyStep s (.setTree t)).1.tree = t := by
  simp only [policyStep]
  rw [updateFires_tree]

theorem policyStep_tree_setExpanded (s : PolicyState) (e : List Nat) :
    (policyStep s (.setExpanded e)).1.tree = s.tree := by
  simp only [policyStep]
  rw [updateFires_tree]

theorem policyStep_fired_setTree (s : PolicyState) (t : List BookmarkNode)
    (h : (policyStep s (.setTree t)).2 = true) :
    (if treeChanged s.tree t then false else s.hasInit) = false
      ∧ (policyStep s (.setTree t)).1.hasInit = true := by
  simp only [policyStep] at *
  exact updateFires_fired _ h

theorem policyStep_not_fired_setTree (s : PolicyState) (t : List BookmarkNode)
    (h : (policyStep s (.setTree t)).2 = false) :
    (policyStep s (.setTree t)).1.hasInit
      = (if treeChanged s.tree t then false else s.hasInit) := by
  simp only [policyStep] at *
  exact updateFires_not_fired _ h

theorem policyStep_fired_setExpanded (s : PolicyState) (e : List Nat)
    (h : (policyStep s (.setExpanded e)).2 = true) :
    s.hasInit = false ∧ (policyStep s (.setExpanded e)).1.hasInit = true := by
  simp only [policyStep] at *
  exact updateFires_fired _ h

theorem policyStep_not_fired_setExpanded (s : PolicyState) (e : List Nat)
    (h : (policyStep s (.setExpanded e)).2 = false) :
    (policyStep s (.setExpanded e)).1.hasInit = s.hasInit := by
  simp only [policyStep] at *
  exact updateFires_not_fired _ h

/-- C8 counterexample: starting from first load, the trace "load forest
`[1, 2]`, then replace it by the reordered forest `[2, 1]`" fires the
auto-expand request twice, although both forests have the same node-id set —
the watcher's freshness test compares the ordered top-level id list
(`JSON.stringify(treeData.map(n => n.id))`), not the node-id set, so the
request is emitted again for a forest the claim counts as not fresh. -/
theorem C8_freshness_counterexample :
    (runPolicy ⟨[], [], false⟩
        [.setTree [.mk 1 "a" none [], .mk 2 "b" none []],
         .setTree [.mk 2 "b" none [], .mk 1 "a" none []]]).2 = 2
    ∧ (bnAllIdsL [.mk 1 "a" none [], .mk 2 "b" none []]).toFinset
        = (bnAllIdsL [.mk 2 "b" none [], .mk 1 "a" none []]).toFinset := by
  constructor
  · rfl
  · decide

/-- C8 (amended): the auto-expand request fires at most once per fresh
forest, where a forest counts as fresh exactly when its *ordered top-level
id list* (or the top-level length) differs from the previous forest's, or on
first load: along any event trace, the number of fires is bounded by the
number of fresh forest replacements, plus one for the first load (no credit
when `hasInitializedExpansion` is already set); in particular, once the flag
is set, no fire happens until a fresh forest arrives, whatever the expanded
set does. -/
theorem C8_at_most_once_per_fresh_forest (s : PolicyState) (evs : List PolicyEvent) :
    (runPolicy s evs).2 ≤ freshCount s.tree evs + (if s.hasInit then 0 else 1) := by
  induction evs generalizing s with
  | nil => simp [runPolicy]
  | cons ev r ih =>
      cases ev with
      | setTree t =>
          simp only [runPolicy, freshCount]
          have hrec := ih (policyStep s (.setTree t)).1
          rw [policyStep_tree_setTree] at hrec
          cases hfire : (policyStep s (.setTree t)).2 with
          | true =>
              obtain ⟨h1, h2⟩ := policyStep_fired_setTree s t hfire
              rw [h2] at hrec
              by_cases hch : treeChanged s.tree t = true
              · simp only [hch] at h1 ⊢
                simp at hrec ⊢
                omega
              · rw [if_neg hch] at h1
                rw [if_neg hch, h1]
                simp at hrec ⊢
                omega
          | false =>
              have h2 := policyStep_not_fired_setTree s t hfire
              rw [h2] at hrec
              by_cases hch : treeChanged s.tree t = true
              · simp only [hch] at hrec ⊢
                simp at hrec ⊢
                omega
              · simp only [if_neg hch] at hrec ⊢
                simp at hrec ⊢
                omega
      | setExpanded e =>
          simp only [runPolicy, freshCount]
          have hrec := ih (policyStep s (.setExpanded e)).1
          rw [policyStep_tree_setExpanded] at hrec
          cases hfire : (policyStep s (.setExpanded e)).2 with
          | true =>
              obtain ⟨h1, h2⟩ := policyStep_fired_setExpanded s e hfire
              rw [h2] at hrec
              simp [h1] at hrec ⊢
              omega
          | false =>
              have h2 := policyStep_not_fired_setExpanded s e hfire
              rw [h2] at hrec
              simp at hrec ⊢
              omega

end CanvasTree
